import Mathlib

/-!
Verification development for the astix parsing toolkit.

The TypeScript sources are embedded shallowly:
* JavaScript strings are `List Char`.
* A JavaScript `RegExp` is modelled abstractly by its `String.match`
  behaviour: a function returning the first match's index and matched text
  (`none` when there is no match).  Concrete regexes used by the test
  grammars (`/\d+/`, `/\d*/`) are given executable models.
* A literal (string) pattern is compiled by the source as
  `new RegExp("^" + pattern)`; this is modelled as an anchored literal
  prefix test, which is the source behaviour whenever the literal contains
  no regex metacharacters.  (A literal such as `"+"` actually makes
  `new RegExp` throw a SyntaxError in JavaScript; the model is charitable
  there, see the notes on the concrete scenarios.)
* The mutable `Node`/`AstTree` object graph is modelled by an explicit
  heap (association list from node ids to node records), because
  `AstTree.addNode`/`leaves` semantics depend on object identity.
* Fallible code returns `Except`/`Option`; the tokenizer's `while` loop is
  modelled with explicit fuel, and termination is proved as a theorem
  (fuel `input.length + 1` always suffices).
-/

namespace Astix

/-- Characters of a JavaScript string. -/
abbrev Str := List Char

/-- `Token.pattern : string | RegExp`.  A regex is modelled by its
`String.match` behaviour on a subject string: first match index plus the
matched text. -/
inductive Pattern where
  | lit (s : Str)
  | regex (m : Str → Option (Nat × Str))

/-- Model of `class Token` (token.ts): pattern, optional name, skip flag and
matched value, with constructor defaults `skip = false`, `value = ""`. -/
structure Tok where
  pattern : Pattern
  name : Option Str
  skip : Bool
  value : Str

/-- Model of `TokenizerError` (errors.ts): the message template is the fixed
string `Unexpected character "<char>"`, so the error is represented by the
offending character together with the reported line and column. -/
structure TokenizerErr where
  char : Char
  line : Nat
  column : Nat
deriving DecidableEq

/-- `Tokenizer.matchToken` (tokenizer.ts lines 80-89): a regex pattern is
matched as-is against the remaining input and accepted only when
`match.index === 0`; a string pattern is compiled to `new RegExp("^" + p)`,
i.e. an anchored literal prefix test (for metacharacter-free literals), whose
match is the literal itself at index 0. -/
def tokMatch (t : Tok) (s : Str) : Option Str :=
  match t.pattern with
  | .regex m =>
    match m s with
    | some iv => if iv.1 = 0 then some iv.2 else none
    | none => none
  | .lit p => if s.take p.length = p then some p else none

/-- The inner `for` loop of `Tokenizer.tokenize` (lines 50-61): skip-flagged
definitions are skipped, and the first definition whose `matchToken` result is
truthy wins.  A JavaScript empty-string match is falsy, so a definition whose
pattern matches only the empty prefix does not win and the scan continues. -/
def firstWin : List Tok → Str → Option (Tok × Str)
  | [], _ => none
  | d :: ds, s =>
    if d.skip then firstWin ds s
    else
      match tokMatch d s with
      | some v => if v = [] then firstWin ds s else some (d, v)
      | none => firstWin ds s

/-- `Tokenizer.updatePosition` (lines 95-107) restricted to the line/column
pair: scan the matched text, incrementing the line and resetting the column
to 1 on a newline, otherwise incrementing the column. -/
def advanceLC (lc : Nat × Nat) (v : Str) : Nat × Nat :=
  v.foldl (fun p c => if c = '\n' then (p.1 + 1, 1) else (p.1, p.2 + 1)) lc

/-- The `while` loop of `Tokenizer.tokenize` (lines 45-72), with explicit
fuel (`none` = fuel exhausted; the termination theorem shows
`input.length + 1` fuel always suffices).  On a win the loop pushes
`new Token(token.pattern, token.name, false)` — the matched substring is NOT
passed, so the emitted instance's `value` is the constructor default `""`;
the match is used only to advance position/line/column.  When nothing
matches it throws `TokenizerError` with the character at the current
offset. -/
def tokenizeFuel (defs : List Tok) (input : Str) :
    Nat → Nat → Nat → Nat → Option (Except TokenizerErr (List Tok))
  | _, _, _, 0 => none
  | pos, line, col, fuel + 1 =>
    if h : pos < input.length then
      match firstWin defs (input.drop pos) with
      | some dv =>
        let lc := advanceLC (line, col) dv.2
        match tokenizeFuel defs input (pos + dv.2.length) lc.1 lc.2 fuel with
        | some (.ok rest) => some (.ok (⟨dv.1.pattern, dv.1.name, false, []⟩ :: rest))
        | some (.error e) => some (.error e)
        | none => none
      | none => some (.error ⟨input.get ⟨pos, h⟩, line, col⟩)
    else some (.ok [])

/-- `Tokenizer.tokenize` run from the freshly constructed state
(position 0, line 1, column 1).  The default branch of `getD` is dead:
the termination theorem proves the loop completes within
`input.length + 1` iterations. -/
def tokenize (defs : List Tok) (input : Str) : Except TokenizerErr (List Tok) :=
  (tokenizeFuel defs input 0 1 1 (input.length + 1)).getD (.ok [])

/-! ### Grammar model (grammar.ts) -/

/-- `enum Associativity`. -/
inductive Associativity where
  | LEFT
  | RIGHT
  | NONASSOC
deriving DecidableEq

/-- `class GrammarRule`: token sequence plus optional metadata
(`precedence` is a JavaScript number; the claims only involve integral
values, so it is modelled as `Int`). -/
structure GrammarRule where
  tokens : List Tok
  associativity : Option Associativity
  precedence : Option Int
  name : Option Str

/-- `class Grammar`: an ordered list of rules. -/
structure Grammar where
  rules : List GrammarRule

/-- `Grammar.addRule`: push at the end. -/
def addRule (g : Grammar) (r : GrammarRule) : Grammar :=
  ⟨g.rules ++ [r]⟩

/-- The sort key of `getRulesByPrecedence`: `rule.precedence || 0`
(missing precedence is treated as 0; the JavaScript `||` also sends an
explicit 0 to 0, which coincides with `getD 0`). -/
def precKey (r : GrammarRule) : Int :=
  r.precedence.getD 0

/-- The ordering realised by the comparator
`(a, b) => (b.precedence || 0) - (a.precedence || 0)`:
`a` may come before `b` exactly when the comparator is `<= 0`. -/
def precGE (a b : GrammarRule) : Prop :=
  precKey b ≤ precKey a

instance : DecidableRel precGE := fun a b =>
  inferInstanceAs (Decidable (precKey b ≤ precKey a))

instance : IsTotal GrammarRule precGE :=
  ⟨fun a b => le_total (precKey b) (precKey a)⟩

instance : IsTrans GrammarRule precGE :=
  ⟨fun _ _ _ h h2 => le_trans h2 h⟩

/-- `Grammar.getRulesByPrecedence`: `rules.slice().sort(cmp)` with the
comparator above.  ECMAScript `Array.prototype.sort` is specified to be
stable, and for a consistent comparator a stable sort has a unique result,
so the source call is modelled by stable insertion sort under `precGE`. -/
def getRulesByPrecedence (g : Grammar) : List GrammarRule :=
  g.rules.insertionSort precGE

/-! ### Parser model (parser.ts) -/

/-- Model of `ParserError` as raised by `Parser.matchRule`: the message
template is `Expected token "<expected>" but found "<found>"`, so the error
is represented by the interpolated expected name (the rule token's `name`,
possibly undefined), the found text, the line (always the placeholder 0)
and the column (the token-stream cursor index). -/
structure ParserErr where
  expected : Option Str
  found : Str
  line : Nat
  column : Nat
deriving DecidableEq

/-- The fixed fallback text of the found-token interpolation. -/
def eoi : Str :=
  "end of input".data

/-- JavaScript `o || d` on an optional string: `undefined` and `""` are
falsy and give the fallback. -/
def jsOr (o : Option Str) (d : Str) : Str :=
  match o with
  | some s => if s = [] then d else s
  | none => d

/-- The found-token text `currentToken?.name || "end of input"`. -/
def foundName (cur : Option Tok) : Str :=
  match cur with
  | some t => jsOr t.name eoi
  | none => eoi

/-- The match test of `Parser.matchToken` (lines 87-89): a regex rule
pattern is `test`ed (unanchored) against the current stream token's
`value`; a string rule pattern must equal that `value` exactly. -/
def ruleMatches (tr cur : Tok) : Bool :=
  match tr.pattern with
  | .regex m => (m cur.value).isSome
  | .lit p => decide (p = cur.value)

/-- Parser state: the eagerly tokenized stream and the cursor. -/
structure PState where
  tokens : List Tok
  position : Nat

/-- `Parser.matchToken` (lines 81-95): `null` at or past the end of the
stream; on a value match the cursor advances and the current stream token is
returned, otherwise `null` with the cursor unchanged. -/
def pMatchToken (tr : Tok) (st : PState) : Option (Tok × PState) :=
  match st.tokens[st.position]? with
  | none => none
  | some cur =>
    if ruleMatches tr cur then some (cur, ⟨st.tokens, st.position + 1⟩) else none

/-- An AST node (ast-node.ts) as built by the parser.  The parser only ever
creates fresh nodes and appends fresh children, so the pure tree value
captures it; the identity-dependent `parent`/`leaves` behaviour is modelled
separately by the heap model below. -/
inductive Node where
  | mk (value : Tok) (token : Str) (children : List Node) (line : Nat) (position : Nat)

/-- Field `Node.value`. -/
def Node.value : Node → Tok
  | .mk v _ _ _ _ => v

/-- Field `Node.token`. -/
def Node.token : Node → Str
  | .mk _ t _ _ _ => t

/-- Field `Node.children`. -/
def Node.children : Node → List Node
  | .mk _ _ cs _ _ => cs

/-- The `for` loop of `Parser.matchRule` (lines 59-71): match each expected
token in order, appending the matched instance as a child
(`appendChild(token, token.name || "", 0, this.position)`, where
`this.position` is the cursor after the advance); on the first failure raise
`ParserError` with the expected name, the found text computed from the
current stream token, line placeholder 0 and the cursor index as column. -/
def matchRuleAux (trs : List Tok) (st : PState) : Except ParserErr (List Node × PState) :=
  match trs with
  | [] => .ok ([], st)
  | tr :: rest =>
    match pMatchToken tr st with
    | some tokSt =>
      match matchRuleAux rest tokSt.2 with
      | .ok childrenSt =>
        .ok (Node.mk tokSt.1 (jsOr tokSt.1.name []) [] 0 tokSt.2.position :: childrenSt.1,
             childrenSt.2)
      | .error e => .error e
    | none => .error ⟨tr.name, foundName st.tokens[st.position]?, 0, st.position⟩

/-- `Parser.matchRule` (lines 37-74): a root node tagged with
`rule.name || ""` whose own value is the synthetic token
`new Token(rule.name || "", rule.name || "", false, "")`, with the matched
children appended in order. -/
def matchRule (rule : GrammarRule) (st : PState) : Except ParserErr Node :=
  match matchRuleAux rule.tokens st with
  | .ok childrenSt =>
    .ok (Node.mk ⟨.lit (jsOr rule.name []), some (jsOr rule.name []), false, []⟩
          (jsOr rule.name []) childrenSt.1 0 0)
  | .error e => .error e

/-- The token definitions the `Parser` constructor feeds its tokenizer:
`grammar.rules.flatMap(rule => rule.tokens)` — all rules' tokens in rule
order, not deduplicated. -/
def parserTokens (g : Grammar) : List Tok :=
  (g.rules.map (fun r => r.tokens)).flatten

/-- Outcome of constructing a `Parser` and calling `parse()`. -/
inductive RunOutcome where
  | tree (root : Node)
  | tokenizerError (e : TokenizerErr)
  | parserError (e : ParserErr)
  | jsTypeError

/-- `new Parser(grammar, input)` followed by `parse()`: eager tokenization
in the constructor (a tokenizer error surfaces first), then matching of
`grammar.rules[0]`.  On an empty rule list `rules[0]` is `undefined` and
the engine throws a TypeError inside `matchRule`, modelled by
`jsTypeError`. -/
def runParse (g : Grammar) (input : Str) : RunOutcome :=
  match tokenize (parserTokens g) input with
  | .error e => .tokenizerError e
  | .ok stream =>
    match g.rules[0]? with
    | none => .jsTypeError
    | some rule =>
      match matchRule rule ⟨stream, 0⟩ with
      | .ok root => .tree root
      | .error e => .parserError e

mutual

/-- Number of nodes of a parser-built tree. -/
def nodeSize : Node → Nat
  | .mk _ _ cs _ _ => 1 + nodesSize cs

/-- Number of nodes of a forest. -/
def nodesSize : List Node → Nat
  | [] => 0
  | c :: cs => nodeSize c + nodesSize cs

end

/-! ### Heap model of the mutable Node / AstTree object graph

`AstTree.addNode` pushes an already-constructed `Node` object into a parent's
children array and maintains `leaves` by object identity
(`leaves.filter(leaf => leaf !== parent)`), so nodes are modelled as records
in an explicit heap addressed by numeric ids. -/

/-- The record stored for one `Node` object: its fields, including the
private `parent` back-reference (initially `null`). -/
structure NodeData where
  value : Tok
  token : Str
  children : List Nat
  line : Nat
  position : Nat
  parent : Option Nat

/-- The object heap: node ids bound to node records. -/
abbrev Heap := List (Nat × NodeData)

/-- Dereference a node id (first binding wins). -/
def lookupH (h : Heap) (k : Nat) : Option NodeData :=
  match h with
  | [] => none
  | e :: t => if e.1 = k then some e.2 else lookupH t k

/-- Overwrite the record bound to `k` (all bindings of `k`, of which a
well-formed heap has one). -/
def updateH (h : Heap) (k : Nat) (d : NodeData) : Heap :=
  h.map (fun e => if e.1 = k then (k, d) else e)

/-- `Node.appendChild` (ast-node.ts): construct a fresh child node with no
children, set its `parent` back-reference to the receiver, and push its id
onto the receiver's children.  `nid` is the fresh id given to the new
object. -/
def appendChildH (h : Heap) (recv : Nat) (nid : Nat) (v : Tok) (tk : Str)
    (ln ps : Nat) : Heap :=
  match lookupH h recv with
  | none => h
  | some rd =>
    updateH h recv { rd with children := rd.children ++ [nid] } ++
      [(nid, ⟨v, tk, [], ln, ps, some recv⟩)]

/-- `Node.getParent`. -/
def getParentH (h : Heap) (x : Nat) : Option (Option Nat) :=
  (lookupH h x).map (fun d => d.parent)

/-- State of one `AstTree` object: the shared heap, the root id, and the
`leaves` array of node ids. -/
structure AstState where
  heap : Heap
  root : Nat
  leaves : List Nat

/-- `node.children.length === 0` for the object behind `x`. -/
def isChildless (h : Heap) (x : Nat) : Bool :=
  match lookupH h x with
  | some d => d.children.isEmpty
  | none => false

/-- `AstTree.addNode(node, parent)` (ast-tree.ts lines 59-70): push `node`
into `parent.children`; if that made `parent.children.length === 1`, filter
`parent` out of `leaves` (by identity); if `node.children.length === 0`
(read after the push, which matters when `node === parent`), push `node`
onto `leaves`.  The node's own `parent` field is NOT touched.  The `none`
branch is unreachable in JavaScript, where the `parent` reference always
dereferences. -/
def addNode (s : AstState) (nid pid : Nat) : AstState :=
  match lookupH s.heap pid with
  | none => s
  | some pd =>
    let pd2 := { pd with children := pd.children ++ [nid] }
    let h2 := updateH s.heap pid pd2
    let l1 := if pd2.children.length = 1 then s.leaves.filter (fun x => x != pid)
              else s.leaves
    let l2 := match lookupH h2 nid with
      | some nd => if nd.children.isEmpty then l1 ++ [nid] else l1
      | none => l1
    ⟨h2, s.root, l2⟩

/-- Pre-order traversal of the object graph with fuel (the JavaScript
recursion; on the tree-shaped graphs the source builds, fuel equal to the
heap size suffices). -/
def preorderH (h : Heap) : Nat → Nat → List Nat
  | 0, _ => []
  | fuel + 1, x =>
    x :: (match lookupH h x with
      | some d => (d.children.map (fun c => preorderH h fuel c)).flatten
      | none => [])

/-- The `AstTree` constructor: a childless root is itself the sole leaf;
otherwise leaves are collected by a full pre-order scan.  The `none` branch
is unreachable in JavaScript (the root reference always dereferences). -/
def astInit (h : Heap) (rid : Nat) : AstState :=
  match lookupH h rid with
  | some rd =>
    ⟨h, rid,
      if rd.children.isEmpty then [rid]
      else (preorderH h h.length rid).filter (fun x => isChildless h x)⟩
  | none => ⟨h, rid, []⟩

/-- Reachability from a node along children edges in the heap. -/
inductive Reach (h : Heap) : Nat → Nat → Prop where
  | refl (x : Nat) : Reach h x x
  | step {x y z : Nat} {d : NodeData} :
      lookupH h x = some d → y ∈ d.children → Reach h y z → Reach h x z

/-- The leaf invariant claimed for `AstTree`: `leaves` holds exactly the
nodes reachable from the root that have no children, without duplicates. -/
def LeafInv (s : AstState) : Prop :=
  s.leaves.Nodup ∧
    ∀ x, x ∈ s.leaves ↔ Reach s.heap s.root x ∧ isChildless s.heap x = true

/-- A sequence of `addNode` calls in which every added node is an existing
childless object not already part of the tree, attached under a node of the
tree. -/
inductive ValidSeq : AstState → List (Nat × Nat) → Prop where
  | nil (s : AstState) : ValidSeq s []
  | cons {s : AstState} {nid pid : Nat} {ops : List (Nat × Nat)} (nd : NodeData) :
      lookupH s.heap nid = some nd → nd.children = [] →
      ¬ Reach s.heap s.root nid → Reach s.heap s.root pid →
      ValidSeq (addNode s nid pid) ops →
      ValidSeq s ((nid, pid) :: ops)

/-- Run a sequence of `addNode` calls. -/
def applyOps (s : AstState) (ops : List (Nat × Nat)) : AstState :=
  ops.foldl (fun t np => addNode t np.1 np.2) s

/-! ### Concrete instances used by the scenarios -/

/-- Executable model of `/\d+/`: the first maximal run of digits, with its
index.  Helper: scan from index `i`. -/
def firstDigitRun : Str → Nat → Option (Nat × Str)
  | [], _ => none
  | c :: cs, i =>
    if c.isDigit then some (i, c :: cs.takeWhile (fun x => x.isDigit))
    else firstDigitRun cs (i + 1)

/-- `/\d+/` as an abstract regex. -/
def digitsPlus : Str → Option (Nat × Str) :=
  fun s => firstDigitRun s 0

/-- `/\d*/` as an abstract regex: always matches at index 0, possibly with
empty text. -/
def digitsStar : Str → Option (Nat × Str) :=
  fun s => some (0, s.takeWhile (fun x => x.isDigit))

/-- `{pattern: /\d+/, name: "NUM"}`. -/
def numDef : Tok := ⟨.regex digitsPlus, some "NUM".data, false, []⟩

/-- `{pattern: "+", name: "PLUS"}`. -/
def plusDef : Tok := ⟨.lit "+".data, some "PLUS".data, false, []⟩

/-- `{pattern: "x", name: "X"}`. -/
def xDef : Tok := ⟨.lit "x".data, some "X".data, false, []⟩

/-- `{pattern: "y", name: "Y"}`. -/
def yDef : Tok := ⟨.lit "y".data, some "Y".data, false, []⟩

/-- `{pattern: "a"}` — no name. -/
def aDefUnnamed : Tok := ⟨.lit "a".data, none, false, []⟩

/-- `{pattern: "b", name: "B"}`. -/
def bDef : Tok := ⟨.lit "b".data, some "B".data, false, []⟩

/-- `{pattern: /\d*/, name: "D"}`. -/
def starDef : Tok := ⟨.regex digitsStar, some "D".data, false, []⟩

/-- The grammar of the concrete scenario: one rule `NUM PLUS NUM`. -/
def gScenario : Grammar :=
  ⟨[⟨[numDef, plusDef, numDef], some .NONASSOC, none, some "expr".data⟩]⟩

/-- One rule expecting `X Y`. -/
def gXY : Grammar :=
  ⟨[⟨[xDef, yDef], some .NONASSOC, none, some "xy".data⟩]⟩

/-- One rule expecting a single `X`. -/
def gX : Grammar :=
  ⟨[⟨[xDef], some .NONASSOC, none, some "x".data⟩]⟩

/-- One rule whose first expected token definition is unnamed. -/
def gUnnamed : Grammar :=
  ⟨[⟨[aDefUnnamed, bDef], some .NONASSOC, none, none⟩]⟩

/-- One rule expecting a single `/\d*/` token. -/
def gStar : Grammar :=
  ⟨[⟨[starDef], some .NONASSOC, none, some "d".data⟩]⟩

/-- A token value for heap nodes in the concrete tree scenarios. -/
def tok0 : Tok := ⟨.lit [], none, false, []⟩

/-- A heap with a childless root object 0 and two further childless node
objects 1 and 2 that are not part of the tree. -/
def heap3 : Heap :=
  [(0, ⟨tok0, [], [], 0, 0, none⟩),
   (1, ⟨tok0, [], [], 0, 0, none⟩),
   (2, ⟨tok0, [], [], 0, 0, none⟩)]

/-- `new AstTree(node0)` over `heap3`. -/
def ast3 : AstState := astInit heap3 0

/-- A heap with a childless root object 0 and one further childless node
object 1 that is not part of the tree. -/
def heap2 : Heap :=
  [(0, ⟨tok0, [], [], 0, 0, none⟩),
   (1, ⟨tok0, [], [], 0, 0, none⟩)]

/-- `new AstTree(node0)` over `heap2`. -/
def ast2 : AstState := astInit heap2 0

/-- Concatenation of the `value` fields of a tokenization result. -/
def valuesConcat : Except TokenizerErr (List Tok) → Str
  | .ok ts => (ts.map (fun t => t.value)).flatten
  | .error _ => []

/-- A pattern's abstract match function is genuine when an index-0 match
reports text that really is a prefix of the subject — which is what
`String.match` returns for an actual `RegExp`.  Literal patterns are
prefix tests by construction. -/
def PatGenuine : Pattern → Prop
  | .lit _ => True
  | .regex m => ∀ s v, m s = some (0, v) → ∃ t, v ++ t = s

/-! ## Theorems -/

/-- A winning match of the tokenizer loop is never the empty string: the
JavaScript truthiness test `if (match)` rejects `""`. -/
theorem firstWin_ne {defs : List Tok} {s : Str} {dv : Tok × Str}
    (h : firstWin defs s = some dv) : dv.2 ≠ [] := by
  induction defs with
  | nil => simp [firstWin] at h
  | cons d ds ih =>
    rw [firstWin] at h
    split at h
    · exact ih h
    · split at h
      · split at h
        · exact ih h
        · cases h
          assumption
      · exact ih h

/-- Fuel `input.length - pos + 1` (in particular `input.length + 1` from the
start) is always enough for the tokenizer loop: every iteration either stops
or advances the offset by the non-empty winning match. -/
theorem tokenizeFuel_sufficient (defs : List Tok) (input : Str) :
    ∀ fuel pos line col, input.length - pos < fuel →
      (tokenizeFuel defs input pos line col fuel).isSome := by
  intro fuel
  induction fuel with
  | zero => intro pos line col h; omega
  | succ fuel ih =>
    intro pos line col h
    rw [tokenizeFuel]
    split
    · case isTrue hp =>
      cases hw : firstWin defs (input.drop pos) with
      | none => simp
      | some dv =>
        have hne : dv.2 ≠ [] := firstWin_ne hw
        have hlen : 0 < dv.2.length := List.length_pos.mpr hne
        have hfuel : input.length - (pos + dv.2.length) < fuel := by omega
        have hs := ih (pos + dv.2.length) (advanceLC (line, col) dv.2).1
          (advanceLC (line, col) dv.2).2 hfuel
        cases hr : tokenizeFuel defs input (pos + dv.2.length)
            (advanceLC (line, col) dv.2).1 (advanceLC (line, col) dv.2).2 fuel with
        | none => rw [hr] at hs; simp at hs
        | some r => cases r <;> simp [hr]
    · simp

/-- C3: for every list of token definitions and every input,
`Tokenizer.tokenize` terminates — the fueled model of its `while` loop
completes (returning either a token array or a `TokenizerError`) within
`input.length + 1` iterations, because a winning definition always consumes
a non-empty prefix (an empty regex match is falsy and never wins). -/
theorem c3_tokenize_terminates (defs : List Tok) (input : Str) :
    (tokenizeFuel defs input 0 1 1 (input.length + 1)).isSome :=
  tokenizeFuel_sufficient defs input (input.length + 1) 0 1 1 (by omega)

/-- C1: evaluation of the code at the failing input.  Tokenizing `"3"` with
the single definition `{pattern: /\d+/, name: "NUM"}` emits a token whose
`value` is `""` — `tokenize` pushes `new Token(token.pattern, token.name,
false)`, dropping the matched substring `"3"` — so the concatenation of the
emitted values is `""`, not the input. -/
theorem c1_value_discarded :
    tokenize [numDef] "3".data =
      .ok [⟨Pattern.regex digitsPlus, some "NUM".data, false, []⟩] ∧
    valuesConcat (tokenize [numDef] "3".data) = [] ∧
    "3".data ≠ [] :=
  ⟨rfl, rfl, by decide⟩

/-- C2: evaluation of the code at the claim's scenario.  With the grammar
`[NUM /\d+/, PLUS "+", NUM /\d+/]` and input `"3+4"`, `parse()` does not
succeed: every tokenized instance carries `value = ""` (see C1), so the
parser's value test `/\d+/.test("")` fails on the first expected token and a
`ParserError` (`Expected token "NUM" but found "NUM"`) is raised.  (In an
actual JavaScript engine the run dies even earlier: the literal pattern
`"+"` is compiled as `new RegExp("^+")`, a regex SyntaxError; the model is
charitable and treats the literal as a plain prefix test.) -/
theorem c2_scenario_fails :
    runParse gScenario "3+4".data =
      .parserError ⟨some "NUM".data, "NUM".data, 0, 0⟩ :=
  rfl

/-- C10: a concrete run in which rule matching fails while the cursor points
at an existing token whose `name` is undefined: the stream holds exactly one
token (so the failing cursor 0 points at a real token), that token's name is
`none`, and the `ParserError` nevertheless reports `"end of input"`, because
the message uses `currentToken?.name || "end of input"` and an undefined (or
empty) name is falsy. -/
theorem c10_unnamed_token_eoi :
    tokenize (parserTokens gUnnamed) "a".data =
      .ok [⟨Pattern.lit "a".data, none, false, []⟩] ∧
    runParse gUnnamed "a".data =
      .parserError ⟨none, "end of input".data, 0, 0⟩ ∧
    (0 : Nat) < [(⟨Pattern.lit "a".data, none, false, []⟩ : Tok)].length :=
  ⟨rfl, rfl, by decide⟩

/-- C6 counterexample: a grammar whose root rule expects 2 tokens while the
input produces only 1, yet `parse()` reports the current token's name `"X"`,
not `"end of input"` — the rule fails on the first expected token (its
value test against the empty stored value fails) while the cursor still
points at a real, named token. -/
theorem c6_counterexample :
    (gXY.rules[0]?.map (fun r => r.tokens.length)) = some 2 ∧
    tokenize (parserTokens gXY) "x".data =
      .ok [⟨Pattern.lit "x".data, some "X".data, false, []⟩] ∧
    runParse gXY "x".data = .parserError ⟨some "X".data, "X".data, 0, 0⟩ ∧
    "X".data ≠ eoi :=
  ⟨rfl, rfl, rfl, by decide⟩

/-- Inserting a rule into a sorted-by-precedence list preserves the
key-class subsequences: the inserted rule lands in front of its own key
class and leaves every class's relative order unchanged. -/
theorem orderedInsert_precFilter (v : Int) (a : GrammarRule) (l : List GrammarRule) :
    (l.orderedInsert precGE a).filter (fun r => decide (precKey r = v)) =
      if precKey a = v then a :: l.filter (fun r => decide (precKey r = v))
      else l.filter (fun r => decide (precKey r = v)) := by
  induction l with
  | nil =>
    by_cases hv : precKey a = v <;> simp [List.orderedInsert, List.filter, hv]
  | cons b t ih =>
    rw [List.orderedInsert]
    split
    · by_cases hv : precKey a = v <;> simp [List.filter, hv]
    · rename_i hab
      have hlt : precKey a < precKey b := lt_of_not_le hab
      by_cases hbv : precKey b = v
      · have hav : precKey a ≠ v := by omega
        simp [List.filter_cons, hbv, hav, ih]
      · by_cases hav : precKey a = v <;> simp [List.filter_cons, hbv, hav, ih]

/-- Stability of the modelled sort: for every precedence value `v`, the
rules whose key is `v` appear in `getRulesByPrecedence` in exactly their
original order. -/
theorem insertionSort_precFilter (v : Int) (l : List GrammarRule) :
    (l.insertionSort precGE).filter (fun r => decide (precKey r = v)) =
      l.filter (fun r => decide (precKey r = v)) := by
  induction l with
  | nil => rfl
  | cons a t ih =>
    rw [List.insertionSort, orderedInsert_precFilter]
    by_cases hav : precKey a = v <;> simp [List.filter, hav, ih]

/-- C8: `getRulesByPrecedence()` returns a permutation of the grammar's own
rules list (a fresh sorted copy; the grammar itself is untouched, the model
being pure), sorted descending by `precedence || 0`, and stably: rules of
equal key keep their relative insertion order (their key-class subsequences
are preserved verbatim). -/
theorem c8_rules_by_precedence (g : Grammar) :
    (getRulesByPrecedence g).Perm g.rules ∧
    List.Sorted precGE (getRulesByPrecedence g) ∧
    ∀ v : Int, (getRulesByPrecedence g).filter (fun r => decide (precKey r = v)) =
      g.rules.filter (fun r => decide (precKey r = v)) :=
  ⟨List.perm_insertionSort precGE g.rules,
   List.sorted_insertionSort precGE g.rules,
   fun v => insertionSort_precFilter v g.rules⟩

/-- An accepted `Tokenizer.matchToken` result is a prefix of the remaining
input (for a genuine pattern): literal matches are prefix tests outright,
and a genuine regex reports index-0 matches that are prefixes. -/
theorem tokMatch_genuine {d : Tok} {s v : Str} (hg : PatGenuine d.pattern)
    (h : tokMatch d s = some v) : ∃ t, v ++ t = s := by
  unfold tokMatch at h
  cases hp : d.pattern with
  | lit p =>
    simp only [hp] at h
    by_cases hpre : s.take p.length = p
    · rw [if_pos hpre] at h
      cases h
      refine ⟨s.drop v.length, ?_⟩
      conv_rhs => rw [← List.take_append_drop v.length s]
      rw [hpre]
    · rw [if_neg hpre] at h
      exact Option.noConfusion h
  | regex m =>
    simp only [hp] at h
    rw [hp] at hg
    cases hm : m s with
    | none =>
      simp only [hm] at h
      exact Option.noConfusion h
    | some iv =>
      simp only [hm] at h
      by_cases hi : iv.1 = 0
      · rw [if_pos hi] at h
        cases h
        exact hg s iv.2 (by rw [hm, ← hi])
      · rw [if_neg hi] at h
        exact Option.noConfusion h

/-- The winning match of one tokenizer-loop iteration is a prefix of the
remaining input, provided every definition's pattern is genuine. -/
theorem firstWin_genuine {defs : List Tok} {s : Str} {dv : Tok × Str}
    (hg : ∀ d ∈ defs, PatGenuine d.pattern) (h : firstWin defs s = some dv) :
    ∃ t, dv.2 ++ t = s := by
  induction defs with
  | nil => simp [firstWin] at h
  | cons d ds ih =>
    have hgd := hg d (by simp)
    have hgs : ∀ x ∈ ds, PatGenuine x.pattern := fun x hx => hg x (by simp [hx])
    rw [firstWin] at h
    split at h
    · exact ih hgs h
    · split at h
      · case h_1 v hm =>
        split at h
        · exact ih hgs h
        · cases h
          exact tokMatch_genuine hgd hm
      · exact ih hgs h

/-- Error invariant of the tokenizer loop: started at offset `pos` with the
line/column pair obtained by scanning the consumed prefix `input.take pos`,
a failing run reports the character at the first stuck offset `p`, the
line/column scan of `input.take p`, and indeed no non-skip definition
matches (truthily) at `p`. -/
theorem tokenizeFuel_error_pos {defs : List Tok} {input : Str}
    (hg : ∀ d ∈ defs, PatGenuine d.pattern) :
    ∀ fuel pos line col e, pos ≤ input.length →
      advanceLC (1, 1) (input.take pos) = (line, col) →
      tokenizeFuel defs input pos line col fuel = some (.error e) →
      ∃ p, pos ≤ p ∧ p < input.length ∧ input[p]? = some e.char ∧
        advanceLC (1, 1) (input.take p) = (e.line, e.column) ∧
        firstWin defs (input.drop p) = none := by
  intro fuel
  induction fuel with
  | zero => intro pos line col e _ _ h; simp [tokenizeFuel] at h
  | succ fuel ih =>
    intro pos line col e hpos hlc h
    rw [tokenizeFuel] at h
    split at h
    · case isTrue hp =>
      cases hw : firstWin defs (input.drop pos) with
      | some dv =>
        simp only [hw] at h
        obtain ⟨t, hpre⟩ := firstWin_genuine hg hw
        have hvlen : pos + dv.2.length ≤ input.length := by
          have := congrArg List.length hpre
          simp [List.length_drop] at this
          omega
        have htake : input.take (pos + dv.2.length) = input.take pos ++ dv.2 := by
          rw [List.take_add]
          congr 1
          rw [← hpre, List.take_left]
        have hlc2 : advanceLC (1, 1) (input.take (pos + dv.2.length)) =
            advanceLC (line, col) dv.2 := by
          rw [htake]
          unfold advanceLC
          rw [List.foldl_append]
          rw [show (input.take pos).foldl
            (fun p c => if c = '\n' then (p.1 + 1, 1) else (p.1, p.2 + 1)) (1, 1) =
              (line, col) from hlc]
        cases hr : tokenizeFuel defs input (pos + dv.2.length)
            (advanceLC (line, col) dv.2).1 (advanceLC (line, col) dv.2).2 fuel with
        | none =>
          simp only [hr] at h
          exact Option.noConfusion h
        | some r =>
          simp only [hr] at h
          cases r with
          | ok _ => exact absurd h (by simp)
          | error e2 =>
            simp only [Option.some.injEq, Except.error.injEq] at h
            subst h
            obtain ⟨p, hp1, hp2, hp3, hp4, hp5⟩ :=
              ih (pos + dv.2.length) (advanceLC (line, col) dv.2).1
                (advanceLC (line, col) dv.2).2 e2 hvlen (by rw [hlc2]) hr
            exact ⟨p, by omega, hp2, hp3, hp4, hp5⟩
      | none =>
        simp only [hw, Option.some.injEq, Except.error.injEq] at h
        refine ⟨pos, le_refl pos, hp, ?_, ?_, hw⟩
        · rw [List.getElem?_eq_getElem hp, ← h]
          rfl
        · rw [hlc, ← h]
    · exact absurd h (by simp)

/-- C5: whenever `Tokenizer.tokenize` raises (for genuine patterns: every
regex's index-0 matches really are prefixes of the subject, as
`String.match` guarantees), the `TokenizerError` carries exactly the single
character at the failing offset — an offset where no non-skip definition
matches — and its line and column equal the manual count over the consumed
prefix: line starts at 1 and increments on each newline (resetting column
to 1), column starts at 1 and increments on every other character. -/
theorem c5_error_position {defs : List Tok} {input : Str} {e : TokenizerErr}
    (hg : ∀ d ∈ defs, PatGenuine d.pattern)
    (he : tokenize defs input = .error e) :
    ∃ p, p < input.length ∧ input[p]? = some e.char ∧
      advanceLC (1, 1) (input.take p) = (e.line, e.column) ∧
      firstWin defs (input.drop p) = none := by
  have hs := tokenizeFuel_sufficient defs input (input.length + 1) 0 1 1 (by omega)
  cases hr : tokenizeFuel defs input 0 1 1 (input.length + 1) with
  | none => rw [hr] at hs; exact absurd hs (by simp)
  | some r =>
    have : r = .error e := by
      unfold tokenize at he
      rw [hr] at he
      exact he
    subst this
    obtain ⟨p, _, h2, h3, h4, h5⟩ :=
      tokenizeFuel_error_pos hg (input.length + 1) 0 1 1 e (by omega) rfl hr
    exact ⟨p, h2, h3, h4, h5⟩

/-- Witness for C5 at a concrete run: definitions `[{pattern: "x", name:
"X"}]` and input `"xz"` fail at offset 1 with character `'z'`, line 1,
column 2. -/
theorem c5_error_position_witness :
    ∃ p, p < "xz".data.length ∧ "xz".data[p]? = some 'z' ∧
      advanceLC (1, 1) ("xz".data.take p) = (1, 2) ∧
      firstWin [xDef] ("xz".data.drop p) = none :=
  @c5_error_position [xDef] "xz".data ⟨'z', 1, 2⟩
    (by
      intro d hd
      rw [List.mem_singleton] at hd
      subst hd
      exact trivial)
    rfl

/-- `Parser.matchToken` leaves the token stream unchanged and, on success,
advances the cursor by exactly one. -/
theorem pMatchToken_state {tr : Tok} {st : PState} {x : Tok × PState}
    (h : pMatchToken tr st = some x) :
    x.2 = ⟨st.tokens, st.position + 1⟩ := by
  unfold pMatchToken at h
  cases hc : st.tokens[st.position]? with
  | none =>
    simp only [hc] at h
    exact Option.noConfusion h
  | some cur =>
    simp only [hc] at h
    split at h
    · cases h
      rfl
    · exact Option.noConfusion h

/-- Shape of every `ParserError` raised by the matching loop: the line is
the placeholder 0, the column is the failing cursor index (at or after the
starting cursor), and the found text is computed by
`currentToken?.name || "end of input"` from the stream entry at that
cursor. -/
theorem matchRuleAux_error {trs : List Tok} :
    ∀ st e, matchRuleAux trs st = .error e →
      e.line = 0 ∧ st.position ≤ e.column ∧ e.found = foundName st.tokens[e.column]? := by
  induction trs with
  | nil =>
    intro st e h
    exact absurd h (by simp [matchRuleAux])
  | cons tr rest ih =>
    intro st e h
    rw [matchRuleAux] at h
    cases hm : pMatchToken tr st with
    | some tokSt =>
      simp only [hm] at h
      cases hr : matchRuleAux rest tokSt.2 with
      | ok _ =>
        simp only [hr] at h
        exact Except.noConfusion h
      | error e2 =>
        simp only [hr, Except.error.injEq] at h
        subst h
        have hst := pMatchToken_state hm
        obtain ⟨h1, h2, h3⟩ := ih tokSt.2 e2 hr
        rw [hst] at h2 h3
        have h2' : st.position + 1 ≤ e2.column := h2
        exact ⟨h1, by omega, h3⟩
    | none =>
      simp only [hm, Except.error.injEq] at h
      subst h
      exact ⟨rfl, le_refl _, rfl⟩

/-- C6 (amended): whenever rule matching fails with the cursor at or past
the end of the token stream — in particular when the root rule still
expects a token after the whole stream was consumed — the `ParserError`
reports `"end of input"` and the placeholder line 0 (its column being the
cursor index by construction).  Merely expecting more tokens than the
input produces does NOT guarantee this message: an earlier mismatch at an
existing named token reports that token's name instead (see the
counterexample). -/
theorem c6_end_of_input {g : Grammar} {input : Str} {stream : List Tok} {e : ParserErr}
    (hs : tokenize (parserTokens g) input = .ok stream)
    (hp : runParse g input = .parserError e)
    (hc : stream.length ≤ e.column) :
    e.found = eoi ∧ e.line = 0 := by
  unfold runParse at hp
  simp only [hs] at hp
  cases hr0 : g.rules[0]? with
  | none =>
    simp only [hr0] at hp
    exact RunOutcome.noConfusion hp
  | some rule =>
    simp only [hr0] at hp
    cases hmr : matchRule rule ⟨stream, 0⟩ with
    | ok root =>
      simp only [hmr] at hp
      exact RunOutcome.noConfusion hp
    | error e2 =>
      simp only [hmr, RunOutcome.parserError.injEq] at hp
      subst hp
      unfold matchRule at hmr
      cases hra : matchRuleAux rule.tokens ⟨stream, 0⟩ with
      | ok _ =>
        simp only [hra] at hmr
        exact Except.noConfusion hmr
      | error e3 =>
        simp only [hra, Except.error.injEq] at hmr
        subst hmr
        obtain ⟨h1, _, h3⟩ := matchRuleAux_error _ _ hra
        refine ⟨?_, h1⟩
        rw [h3]
        have hnone : stream[e3.column]? = none := List.getElem?_eq_none hc
        have : (⟨stream, 0⟩ : PState).tokens[e3.column]? = none := hnone
        rw [this]
        rfl

/-- Witness for C6 (amended) at a concrete run: one rule expecting `X` on
empty input fails at cursor 0 with `"end of input"` and line 0. -/
theorem c6_end_of_input_witness :
    runParse gX [] = .parserError ⟨some "X".data, eoi, 0, 0⟩ ∧
    (⟨some "X".data, eoi, 0, 0⟩ : ParserErr).found = eoi ∧
    (⟨some "X".data, eoi, 0, 0⟩ : ParserErr).line = 0 :=
  ⟨rfl,
   (@c6_end_of_input gX [] [] ⟨some "X".data, eoi, 0, 0⟩ rfl rfl (by decide)).1,
   (@c6_end_of_input gX [] [] ⟨some "X".data, eoi, 0, 0⟩ rfl rfl (by decide)).2⟩

/-- `Parser.matchToken` succeeds and advances when the stream entry at the
cursor value-matches the expected definition. -/
theorem pMatchToken_advance {tr cur : Tok} {stream : List Tok} {pos : Nat}
    (hcur : stream[pos]? = some cur) (hm : ruleMatches tr cur = true) :
    pMatchToken tr ⟨stream, pos⟩ = some (cur, ⟨stream, pos + 1⟩) := by
  unfold pMatchToken
  simp only [hcur]
  rw [if_pos hm]

/-- When every remaining expected token value-matches the corresponding
remaining stream token, the matching loop succeeds, consuming exactly the
rest of the stream and producing one childless node per matched token, in
matched order. -/
theorem matchRuleAux_ok {stream : List Tok} :
    ∀ trs pos rest, stream.drop pos = rest →
      List.Forall₂ (fun tr cur => ruleMatches tr cur = true) trs rest →
      ∃ children st2,
        matchRuleAux trs ⟨stream, pos⟩ = .ok (children, st2) ∧
        children.map Node.value = rest ∧
        ∀ c ∈ children, c.children = [] := by
  intro trs
  induction trs with
  | nil =>
    intro pos rest hdrop hf
    cases hf
    exact ⟨[], ⟨stream, pos⟩, rfl, rfl, by simp⟩
  | cons tr trs' ih =>
    intro pos rest hdrop hf
    cases hf with
    | cons hmatch hf' =>
      rename_i cur rest'
      have hcur : stream[pos]? = some cur := by
        have h0 : (stream.drop pos)[0]? = some cur := by rw [hdrop]; simp
        rw [List.getElem?_drop] at h0
        simpa using h0
      have hdrop' : stream.drop (pos + 1) = rest' := by
        have h1 := congrArg (List.drop 1) hdrop
        rw [List.drop_drop] at h1
        simpa [Nat.add_comm] using h1
      obtain ⟨children, st2, hok, hmap, hleaf⟩ := ih (pos + 1) rest' hdrop' hf'
      refine ⟨Node.mk cur (jsOr cur.name []) [] 0 (pos + 1) :: children, st2, ?_, ?_, ?_⟩
      · rw [matchRuleAux, pMatchToken_advance hcur hmatch]
        simp only [hok]
      · simp only [List.map_cons, hmap]
        rfl
      · intro c hc
        rcases List.mem_cons.mp hc with rfl | hc2
        · rfl
        · exact hleaf c hc2

/-- Every forest of childless nodes has as many nodes as trees. -/
theorem nodesSize_of_leaves :
    ∀ cs : List Node, (∀ c ∈ cs, c.children = []) → nodesSize cs = cs.length := by
  intro cs
  induction cs with
  | nil => intro _; rfl
  | cons c cs' ih =>
    intro h
    have hc : c.children = [] := h c (by simp)
    cases c with
    | mk v t ch l p =>
      have hch : ch = [] := hc
      subst hch
      have := ih (fun x hx => h x (by simp [hx]))
      simp only [nodesSize, nodeSize, List.length_cons]
      omega

/-- C7: for every grammar whose root rule's token sequence value-matches
the tokenized input token-for-token (`Parser.matchToken`'s criterion, the
whole stream being consumed), `parse()` succeeds and returns a tree of
exactly `1 + rule.tokens.length` nodes: a root for the rule with one direct
child per matched token, in matched order, all children childless (the tree
is exactly two levels deep). -/
theorem c7_full_match_tree {g : Grammar} {input : Str} {stream : List Tok}
    {rule : GrammarRule}
    (hr : g.rules[0]? = some rule)
    (hs : tokenize (parserTokens g) input = .ok stream)
    (hm : List.Forall₂ (fun tr cur => ruleMatches tr cur = true) rule.tokens stream) :
    ∃ root, runParse g input = .tree root ∧
      root.children.length = rule.tokens.length ∧
      root.children.map Node.value = stream ∧
      (∀ c ∈ root.children, c.children = []) ∧
      nodeSize root = 1 + rule.tokens.length := by
  obtain ⟨children, st2, hok, hmap, hleaf⟩ :=
    @matchRuleAux_ok stream rule.tokens 0 stream (List.drop_zero stream) hm
  have hlen : children.length = rule.tokens.length := by
    have h1 := congrArg List.length hmap
    have h2 := List.Forall₂.length_eq hm
    simp only [List.length_map] at h1
    omega
  refine ⟨Node.mk ⟨.lit (jsOr rule.name []), some (jsOr rule.name []), false, []⟩
    (jsOr rule.name []) children 0 0, ?_, hlen, hmap, hleaf, ?_⟩
  · unfold runParse
    simp only [hs, hr]
    unfold matchRule
    simp only [hok]
  · show nodeSize (Node.mk _ _ children _ _) = 1 + rule.tokens.length
    rw [nodeSize, nodesSize_of_leaves children hleaf, hlen]

/-- Witness for C7 at a concrete run: the one-rule grammar expecting a
single `/\d*/` token on input `"5"` parses into a two-node tree whose sole
child carries the tokenized instance. -/
theorem c7_full_match_tree_witness :
    ∃ root, runParse gStar "5".data = .tree root ∧
      root.children.length = 1 ∧
      root.children.map Node.value =
        [⟨Pattern.regex digitsStar, some "D".data, false, []⟩] ∧
      (∀ c ∈ root.children, c.children = []) ∧
      nodeSize root = 1 + 1 :=
  @c7_full_match_tree gStar "5".data
    [⟨Pattern.regex digitsStar, some "D".data, false, []⟩]
    ⟨[starDef], some .NONASSOC, none, some "d".data⟩
    rfl rfl (List.Forall₂.cons rfl List.Forall₂.nil)

/-- In the heap, a node whose record reports no children reaches only
itself. -/
theorem reach_childless_eq {h : Heap} {r x : Nat} {d : NodeData}
    (hl : lookupH h r = some d) (hc : d.children = []) (hr : Reach h r x) :
    x = r := by
  cases hr with
  | refl => rfl
  | step hl2 hy _ =>
    rw [hl] at hl2
    cases hl2
    rw [hc] at hy
    cases hy

/-- How `updateH` affects `lookupH`: the updated key reads back the new
record (when it was bound at all); other keys are untouched. -/
theorem lookupH_updateH (h : Heap) (k : Nat) (d : NodeData) (x : Nat) :
    lookupH (updateH h k d) x =
      if x = k then (lookupH h k).map (fun _ => d) else lookupH h x := by
  induction h with
  | nil => simp [lookupH, updateH]
  | cons e t ih =>
    simp only [updateH, List.map_cons, lookupH]
    by_cases hek : e.1 = k
    · rw [if_pos hek]
      by_cases hxk : x = k
      · subst hxk
        rw [if_pos hek]
        simp
      · have hkx : ¬ (k, d).1 = x := fun hh => hxk (by simpa using hh.symm)
        have hex : ¬ e.1 = x := by rw [hek]; simpa using hkx
        rw [if_neg hkx, if_neg hxk, if_neg hex]
        have h2 := ih
        rw [updateH] at h2
        rw [h2, if_neg hxk]
    · rw [if_neg hek]
      by_cases hex : e.1 = x
      · have hxk : ¬ x = k := by rw [← hex]; exact fun hh => hek hh
        rw [if_pos hex, if_neg hxk, if_pos hex]
      · rw [if_neg hex]
        have h2 := ih
        rw [updateH] at h2
        rw [h2]
        by_cases hxk : x = k
        · rw [if_pos hxk, if_pos hxk, if_neg hek]
        · rw [if_neg hxk, if_neg hxk, if_neg hex]

/-- A key unbound on the left of an append is looked up on the right. -/
theorem lookupH_append_right {h1 : Heap} {x : Nat} (h2 : Heap)
    (hn : lookupH h1 x = none) :
    lookupH (h1 ++ h2) x = lookupH h2 x := by
  induction h1 with
  | nil => rfl
  | cons e t ih =>
    rw [lookupH] at hn
    rw [List.cons_append, lookupH]
    by_cases hex : e.1 = x
    · rw [if_pos hex] at hn
      exact Option.noConfusion hn
    · rw [if_neg hex] at hn
      rw [if_neg hex]
      exact ih hn

/-- A key bound on the left of an append is looked up on the left. -/
theorem lookupH_append_left {h1 : Heap} {x : Nat} {d : NodeData} (h2 : Heap)
    (hs : lookupH h1 x = some d) :
    lookupH (h1 ++ h2) x = some d := by
  induction h1 with
  | nil => exact Option.noConfusion hs
  | cons e t ih =>
    rw [lookupH] at hs
    rw [List.cons_append, lookupH]
    by_cases hex : e.1 = x
    · rw [if_pos hex] at hs
      rw [if_pos hex]
      exact hs
    · rw [if_neg hex] at hs
      rw [if_neg hex]
      exact ih hs

/-- C4 counterexample: start from the `AstTree` over `heap3` (childless
root 0) and call `addNode(node2, node1)` with node 1 an object that is NOT
part of the tree — a sequence the claim's own restriction ("nodes added
without pre-existing children") permits, since node 2 is childless.  The
`leaves` array then contains node 2, which is unreachable from the root, so
`leaves` does not equal the set of reachable childless nodes: the claimed
invariant fails without the further conditions that parents are tree nodes
and added nodes are fresh. -/
theorem c4_counterexample :
    2 ∈ (addNode ast3 2 1).leaves ∧
    ¬ (∀ x, x ∈ (addNode ast3 2 1).leaves ↔
        Reach (addNode ast3 2 1).heap (addNode ast3 2 1).root x ∧
        isChildless (addNode ast3 2 1).heap x = true) := by
  constructor
  · decide
  · intro hAll
    have h2 := (hAll 2).mp (by decide)
    have h0 : lookupH (addNode ast3 2 1).heap 0 = some ⟨tok0, [], [], 0, 0, none⟩ := rfl
    have := reach_childless_eq h0 rfl h2.1
    exact absurd this (by decide)

/-- C9 counterexample: over `heap2` (childless root 0, detached childless
node 1), `addNode(node1, node0)` attaches node 1 under node 0 — it appears
in node 0's children — yet `getParent()` on node 1 still returns `null`,
not node 0: `AstTree.addNode` never sets the attached node's `parent`
back-reference. -/
theorem c9_counterexample :
    (lookupH (addNode ast2 1 0).heap 0).map (fun d => d.children) = some [1] ∧
    getParentH (addNode ast2 1 0).heap 1 = some none ∧
    getParentH (addNode ast2 1 0).heap 1 ≠ some (some 0) := by
  refine ⟨rfl, rfl, ?_⟩
  decide

/-- C9 (amended): `Node.appendChild` does maintain the parent
back-reference — after appending, `getParent()` on the fresh child returns
the receiver, whose children gained the child's id — whereas
`AstTree.addNode` leaves the attached node's `parent` field exactly as it
was (`null` for a node never attached via `appendChild`). -/
theorem c9_append_parent {h : Heap} {recv nid : Nat} {rd : NodeData}
    (hrecv : lookupH h recv = some rd) (hfresh : lookupH h nid = none)
    (v : Tok) (tk : Str) (ln ps : Nat) :
    getParentH (appendChildH h recv nid v tk ln ps) nid = some (some recv) ∧
    (lookupH (appendChildH h recv nid v tk ln ps) recv).map (fun d => d.children) =
      some (rd.children ++ [nid]) ∧
    ∀ (s : AstState) (n p : Nat),
      getParentH (addNode s n p).heap n = getParentH s.heap n := by
  have hne : ¬ nid = recv := fun he => by
    rw [he, hrecv] at hfresh
    exact Option.noConfusion hfresh
  refine ⟨?_, ?_, ?_⟩
  · unfold appendChildH
    simp only [hrecv]
    unfold getParentH
    rw [lookupH_append_right _ (by rw [lookupH_updateH, if_neg hne]; exact hfresh)]
    simp [lookupH]
  · unfold appendChildH
    simp only [hrecv]
    rw [lookupH_append_left _
      (by rw [lookupH_updateH, if_pos rfl, hrecv]; rfl)]
    rfl
  · intro s n p
    unfold addNode
    cases hp : lookupH s.heap p with
    | none => rfl
    | some pd =>
      unfold getParentH
      simp only [lookupH_updateH]
      by_cases hnp : n = p
      · rw [if_pos hnp, hnp, hp]
        rfl
      · rw [if_neg hnp]

/-- Witness for C9 (amended): appending a fresh node 3 under the root of
`heap2` sets its parent back-reference to the root. -/
theorem c9_append_parent_witness :
    getParentH (appendChildH heap2 0 3 tok0 [] 0 0) 3 = some (some 0) ∧
    (lookupH (appendChildH heap2 0 3 tok0 [] 0 0) 0).map (fun d => d.children) =
      some ([] ++ [3]) ∧
    ∀ (s : AstState) (n p : Nat),
      getParentH (addNode s n p).heap n = getParentH s.heap n :=
  @c9_append_parent heap2 0 3 ⟨tok0, [], [], 0, 0, none⟩ rfl rfl tok0 [] 0 0

/-- Reachability extends along one more child edge at its end. -/
theorem reach_snoc {h : Heap} {y : Nat} {d : NodeData} :
    ∀ {a b : Nat}, Reach h a b → lookupH h b = some d → y ∈ d.children →
      Reach h a y := by
  intro a b hr
  induction hr with
  | refl x =>
    intro hb hy
    exact Reach.step hb hy (Reach.refl y)
  | step hl hm _ ih =>
    intro hb hy
    exact Reach.step hl hm (ih hb hy)

/-- Adding a child edge preserves every existing reachability fact. -/
theorem reach_mono {h : Heap} {pid nid : Nat} {pd : NodeData}
    (hp : lookupH h pid = some pd) {a b : Nat} (hr : Reach h a b) :
    Reach (updateH h pid { pd with children := pd.children ++ [nid] }) a b := by
  induction hr with
  | refl x => exact Reach.refl x
  | step hl hm hsub ih =>
    rename_i x y z d
    by_cases hx : x = pid
    · have hd : d = pd := by
        rw [hx, hp] at hl
        cases hl
        rfl
      subst hd
      refine @Reach.step _ _ _ _ { d with children := d.children ++ [nid] } ?_
        (List.mem_append_left _ hm) ih
      rw [lookupH_updateH, if_pos hx, hp]
      rfl
    · exact Reach.step (by rw [lookupH_updateH, if_neg hx]; exact hl) hm ih

/-- Conversely, after adding the edge `pid → nid` where `nid` is a
childless record distinct from `pid`, anything reachable was either already
reachable or is `nid` itself. -/
theorem reach_back {h : Heap} {pid nid : Nat} {pd nd : NodeData}
    (hp : lookupH h pid = some pd) (hn : lookupH h nid = some nd)
    (hnc : nd.children = []) (hne : ¬ nid = pid) :
    ∀ {a b : Nat},
      Reach (updateH h pid { pd with children := pd.children ++ [nid] }) a b →
      Reach h a b ∨ b = nid := by
  intro a b hr
  induction hr with
  | refl x => exact Or.inl (Reach.refl x)
  | step hl hm hsub ih =>
    rename_i x y z d
    by_cases hx : x = pid
    · rw [lookupH_updateH, if_pos hx, hp, Option.map_some'] at hl
      have hd : d = { pd with children := pd.children ++ [nid] } := by
        cases hl
        rfl
      subst hd
      rcases List.mem_append.mp hm with hy1 | hy2
      · rcases ih with hR | hb
        · refine Or.inl ?_
          rw [hx]
          exact Reach.step hp hy1 hR
        · exact Or.inr hb
      · have hy : y = nid := by simpa using hy2
        rw [hy] at hsub
        have hnl : lookupH (updateH h pid
            { pd with children := pd.children ++ [nid] }) nid = some nd := by
          rw [lookupH_updateH, if_neg hne]
          exact hn
        exact Or.inr (reach_childless_eq hnl hnc hsub)
    · rw [lookupH_updateH, if_neg hx] at hl
      rcases ih with hR | hb
      · exact Or.inl (Reach.step hl hm hR)
      · exact Or.inr hb

/-- Effect of the new edge on childlessness: the parent stops being
childless, every other record is unaffected. -/
theorem isChildless_update {h : Heap} {pid : Nat} {pd : NodeData}
    (hp : lookupH h pid = some pd) (nid : Nat) (x : Nat) :
    isChildless (updateH h pid { pd with children := pd.children ++ [nid] }) x =
      if x = pid then false else isChildless h x := by
  unfold isChildless
  rw [lookupH_updateH]
  by_cases hx : x = pid
  · rw [if_pos hx, if_pos hx, hp]
    simp
  · rw [if_neg hx, if_neg hx]

/-- One valid `addNode` call preserves the leaf invariant: attaching an
existing childless node, not already part of the tree, under a node of the
tree keeps `leaves` equal (without duplicates) to the set of reachable
childless nodes. -/
theorem addNode_leafInv {s : AstState} {nid pid : Nat} {nd : NodeData}
    (hInv : LeafInv s)
    (hn : lookupH s.heap nid = some nd) (hnc : nd.children = [])
    (hnr : ¬ Reach s.heap s.root nid) (hpr : Reach s.heap s.root pid) :
    LeafInv (addNode s nid pid) := by
  obtain ⟨hnd, hmem⟩ := hInv
  cases hp : lookupH s.heap pid with
  | none =>
    unfold addNode
    rw [hp]
    exact ⟨hnd, hmem⟩
  | some pd =>
    have hne : ¬ nid = pid := fun he => hnr (by rw [he]; exact hpr)
    have hnid_not_leaf : nid ∉ s.leaves := fun hl => hnr ((hmem nid).mp hl).1
    have hnid_childless : isChildless s.heap nid = true := by
      unfold isChildless
      simp only [hn]
      rw [hnc]
      rfl
    have hReachIff : ∀ x,
        Reach (updateH s.heap pid { pd with children := pd.children ++ [nid] })
          s.root x ↔ (Reach s.heap s.root x ∨ x = nid) := by
      intro x
      constructor
      · exact reach_back hp hn hnc hne
      · rintro (hR | rfl)
        · exact reach_mono hp hR
        · exact reach_snoc (reach_mono hp hpr)
            (by rw [lookupH_updateH, if_pos rfl, hp]; rfl)
            (List.mem_append_right _ (List.mem_singleton.mpr rfl))
    have hChild := isChildless_update hp nid
    unfold addNode
    rw [hp]
    simp only [lookupH_updateH, if_neg hne, hn, hnc, List.isEmpty_nil, if_pos]
    by_cases hpc : pd.children = []
    · have hcond : (pd.children ++ [nid]).length = 1 := by
        rw [hpc]
        rfl
      rw [if_pos hcond]
      constructor
      · refine List.Nodup.append (hnd.filter _) (List.nodup_singleton nid) ?_
        intro a ha ha2
        rw [List.mem_singleton] at ha2
        subst ha2
        exact hnid_not_leaf (List.mem_of_mem_filter ha)
      · intro x
        rw [List.mem_append, List.mem_filter, List.mem_singleton]
        constructor
        · rintro (⟨hxl, hxne⟩ | rfl)
          · have hxp : x ≠ pid := by simpa using hxne
            obtain ⟨hR, hC⟩ := (hmem x).mp hxl
            exact ⟨(hReachIff x).mpr (Or.inl hR), by rw [hChild x, if_neg hxp]; exact hC⟩
          · exact ⟨(hReachIff x).mpr (Or.inr rfl),
              by rw [hChild x, if_neg hne]; exact hnid_childless⟩
        · rintro ⟨hR, hC⟩
          rcases (hReachIff x).mp hR with hR0 | rfl
          · rw [hChild x] at hC
            by_cases hxp : x = pid
            · rw [if_pos hxp] at hC
              exact absurd hC (by simp)
            · rw [if_neg hxp] at hC
              exact Or.inl ⟨(hmem x).mpr ⟨hR0, hC⟩, by simpa using hxp⟩
          · exact Or.inr rfl
    · have hcond : ¬ (pd.children ++ [nid]).length = 1 := by
        rw [List.length_append]
        simp [List.length_eq_zero, hpc]
      rw [if_neg hcond]
      have hpid_not_leaf : pid ∉ s.leaves := by
        intro hl
        have := ((hmem pid).mp hl).2
        unfold isChildless at this
        rw [hp] at this
        rw [List.isEmpty_iff] at this
        exact hpc this
      constructor
      · refine List.Nodup.append hnd (List.nodup_singleton nid) ?_
        intro a ha ha2
        rw [List.mem_singleton] at ha2
        subst ha2
        exact hnid_not_leaf ha
      · intro x
        rw [List.mem_append, List.mem_singleton]
        constructor
        · rintro (hxl | rfl)
          · have hxp : x ≠ pid := fun he => hpid_not_leaf (he ▸ hxl)
            obtain ⟨hR, hC⟩ := (hmem x).mp hxl
            exact ⟨(hReachIff x).mpr (Or.inl hR), by rw [hChild x, if_neg hxp]; exact hC⟩
          · exact ⟨(hReachIff x).mpr (Or.inr rfl),
              by rw [hChild x, if_neg hne]; exact hnid_childless⟩
        · rintro ⟨hR, hC⟩
          rcases (hReachIff x).mp hR with hR0 | rfl
          · rw [hChild x] at hC
            by_cases hxp : x = pid
            · rw [if_pos hxp] at hC
              exact absurd hC (by simp)
            · rw [if_neg hxp] at hC
              exact Or.inl ((hmem x).mpr ⟨hR0, hC⟩)
          · exact Or.inr rfl

/-- C4 (amended): after construction and any sequence of `addNode` calls in
which every added node is an existing childless object not already part of
the tree and every parent is a node of the tree, `leaves` equals exactly the
set of nodes reachable from the root that have no children, with no
duplicate or stale entries.  Without the extra conditions the invariant
fails (see the counterexample: attaching under a parent outside the tree
leaves an unreachable node in `leaves`). -/
theorem c4_leaves_invariant {s : AstState} {ops : List (Nat × Nat)}
    (hInv : LeafInv s) (hv : ValidSeq s ops) :
    LeafInv (applyOps s ops) := by
  induction hv with
  | nil s => exact hInv
  | cons nd hn hnc hnr hpr _ ih =>
    exact ih (addNode_leafInv hInv hn hnc hnr hpr)

/-- Witness for C4 (amended): starting from the `AstTree` over `heap2`
(childless root 0, detached childless node 1), the valid call
`addNode(node1, node0)` preserves the leaf invariant. -/
theorem c4_leaves_invariant_witness :
    LeafInv ast2 ∧ LeafInv (applyOps ast2 [(1, 0)]) := by
  have hroot : lookupH ast2.heap 0 = some ⟨tok0, [], [], 0, 0, none⟩ := rfl
  have hInv : LeafInv ast2 := by
    constructor
    · decide
    · intro x
      constructor
      · intro hx
        have hx0 : x = 0 := by
          rw [show ast2.leaves = [0] from rfl, List.mem_singleton] at hx
          exact hx
        subst hx0
        exact ⟨Reach.refl 0, rfl⟩
      · rintro ⟨hR, _⟩
        have := reach_childless_eq hroot rfl hR
        rw [show ast2.leaves = [0] from rfl, List.mem_singleton]
        exact this
  refine ⟨hInv, c4_leaves_invariant hInv ?_⟩
  refine ValidSeq.cons (⟨tok0, [], [], 0, 0, none⟩ : NodeData) rfl rfl ?_ (Reach.refl 0)
    (ValidSeq.nil _)
  intro hR
  have := reach_childless_eq hroot rfl hR
  exact absurd this (by decide)

end Astix
